import Mathlib

/- Shallow embedding of the trail-config library (src/src/lib.rs): a Config
value owning a parsed YAML tree, with separator-based path lookups
(get_leaf / get / str / list), a templated multi-field formatter (fmt) built
on str::replacen and the strfmt crate, and construction helpers (get_file,
load, new).  Strings are manipulated through their character lists; machine
behaviour of the Rust code is mirrored function by function. -/

/-- YAML tree node, mirroring serde_yaml_bw::Value.  The Rust type carries an
optional anchor on scalar constructors, which this library never reads and
which is dropped here; mapping keys are restricted to strings because every
lookup in the library is by string key (a non-string key can never be hit by
Value::get with a &str index, so such entries are unobservable).  Numbers are
modelled as integers; the library only converts them to text. -/
inductive Value where
  | null
  | bool (b : Bool)
  | num (n : Int)
  | str (s : String)
  | seq (xs : List Value)
  | map (m : List (String × Value))

/-- Value::get with a &str index: looks the key up when the node is a
Mapping, and returns None on every other node kind. -/
def Value.get (v : Value) (key : String) : Option Value :=
  match v with
  | .map m => m.lookup key
  | _ => none

/-- Rust str::split with a nonempty pattern a :: tail, on character lists.
The fuel argument only bounds the recursion; the wrapper supplies the input
length, which always suffices because each step consumes at least one
character.  When fuel runs out the remainder is returned as the final
segment (that branch is unreachable from the wrapper). -/
def splitGo (a : Char) (tail : List Char) : Nat → List Char → List (List Char)
  | _, [] => [[]]
  | 0, s => [s]
  | fuel + 1, c :: rest =>
    if c = a ∧ tail.isPrefixOf rest then
      [] :: splitGo a tail fuel (rest.drop tail.length)
    else
      match splitGo a tail fuel rest with
      | [] => [[c]]
      | h :: t => (c :: h) :: t

/-- Rust path.split(sep).collect::<Vec<&str>>().  For an empty pattern Rust
splits around every character; the library's separators are nonempty strings
in every use modelled here, so the empty-pattern case is mapped to the
whole-string singleton and theorems about a symbolic separator carry a
nonemptiness hypothesis. -/
def splitStr (s sep : String) : List String :=
  match sep.data with
  | [] => [s]
  | a :: tail => (splitGo a tail s.data.length s.data).map String.mk

/-- Scanner state of the strfmt model: plain text, or inside a placeholder
accumulating the identifier read so far. -/
inductive FmtState where
  | text
  | ident (acc : List Char)

/-- Model of the strfmt crate's template scanner: literal characters pass
through, doubled braces escape a literal brace, a placeholder's identifier is
looked up in vars (an absent identifier, including the empty one left by a
bare placeholder token, fails), an unmatched closing brace fails, and a
nested opening brace or a format spec introduced by a colon inside a
placeholder is treated as failure (format specs are outside the subset this
library exercises). -/
def strfmtGo (vars : List (String × String)) : List Char → FmtState → Option (List Char)
  | [], .text => some []
  | [], .ident _ => none
  | '\x7b' :: '\x7b' :: rest, .text => Option.map (fun r => '\x7b' :: r) (strfmtGo vars rest .text)
  | '\x7b' :: rest, .text => strfmtGo vars rest (.ident [])
  | '\x7d' :: '\x7d' :: rest, .text => Option.map (fun r => '\x7d' :: r) (strfmtGo vars rest .text)
  | '\x7d' :: _, .text => none
  | c :: rest, .text => Option.map (fun r => c :: r) (strfmtGo vars rest .text)
  | '\x7d' :: rest, .ident acc =>
    match vars.lookup (String.mk acc) with
    | some v => Option.map (fun r => v.data ++ r) (strfmtGo vars rest .text)
    | none => none
  | ':' :: _, .ident _ => none
  | '\x7b' :: _, .ident _ => none
  | c :: rest, .ident acc => strfmtGo vars rest (.ident (acc ++ [c]))

/-- strfmt(fmtstr, vars): substitute named placeholders, None on failure.
The Rust vars argument is a HashMap; it is modelled as an association list
whose insert conses in front, with lookup taking the first hit. -/
def strfmt (tmpl : String) (vars : List (String × String)) : Option String :=
  Option.map String.mk (strfmtGo vars tmpl.data .text)

/-- Worker for str::replacen(pat, to, 1): replace the leftmost occurrence of
pat, scanning left to right.  (Rust's empty-pattern match-at-start behaviour
differs on the empty string; the library only ever uses the two-character
placeholder-token pattern.) -/
def replaceFirstAux (pat rep : List Char) : List Char → List Char
  | [] => []
  | c :: rest =>
    if pat.isPrefixOf (c :: rest) then rep ++ (c :: rest).drop pat.length
    else c :: replaceFirstAux pat rep rest

/-- s.replacen(pat, rep, 1) as used in Config::fmt. -/
def replaceFirst (s pat rep : String) : String :=
  String.mk (replaceFirstAux pat.data rep.data s.data)

/-- The Config struct: parsed YAML content, resolved filename, path
separator, optional environment tag. -/
structure Config where
  content : Value
  filename : String
  separator : String
  environment : Option String

/-- Config::to_string: canonical text of a scalar leaf, empty string for
Null, Sequence and Mapping nodes. -/
def to_string (value : Value) : String :=
  match value with
  | .str v => v
  | .num v => toString v
  | .bool v => if v then "true" else "false"
  | _ => ""

/-- Config::to_list: elementwise scalar conversion of a Sequence, empty list
for every other node kind. -/
def to_list (value : Value) : List String :=
  match value with
  | .seq v => v.map to_string
  | _ => []

/-- The lookup loop shared by Config::get_leaf and the parent walk of
Config::fmt: consume segments by successive Value::get steps, None as soon
as one fails. -/
def walk (content : Value) : List String → Option Value
  | [] => some content
  | item :: rest =>
    match content.get item with
    | some v => walk v rest
    | none => none

/-- Config::get_leaf(content, path, separator). -/
def get_leaf (content : Value) (path sep : String) : Option Value :=
  walk content (splitStr path sep)

/-- Config::get. -/
def Config.get (cfg : Config) (path : String) : Option Value :=
  get_leaf cfg.content path cfg.separator

/-- Config::str: scalar text of the resolved node, empty string when the
path does not resolve. -/
def Config.str (cfg : Config) (path : String) : String :=
  match get_leaf cfg.content path cfg.separator with
  | some v => to_string v
  | none => ""

/-- Config::list: list coercion of the resolved node, empty when the path
does not resolve. -/
def Config.list (cfg : Config) (path : String) : List String :=
  match get_leaf cfg.content path cfg.separator with
  | some v => to_list v
  | none => []

/-- The attribute loop of Config::fmt: for each '+'-separated attribute
name, look it up under the parent node (None aborts), replace the first
remaining placeholder token in the in-progress format string with the named
placeholder, and record name -> scalar text (HashMap::insert modelled by
consing, matching first-hit lookup). -/
def fmtLoop (content : Value) : List String → String → List (String × String) → Option (String × List (String × String))
  | [], f, vars => some (f, vars)
  | item :: rest, f, vars =>
    match content.get item with
    | some v =>
        fmtLoop content rest
          (replaceFirst f "\x7b\x7d" ("\x7b" ++ item ++ "\x7d"))
          ((item, to_string v) :: vars)
    | none => none

/-- Config::fmt(format, path): split the path, pop the last segment, walk
the parent segments (empty string on failure), run the attribute loop on the
'+'-split last segment (empty string on failure), then apply strfmt (empty
string on failure). -/
def Config.fmt (cfg : Config) (format path : String) : String :=
  let parts := splitStr path cfg.separator
  match walk cfg.content parts.dropLast with
  | none => ""
  | some content =>
    match parts.getLast? with
    | none => ""
    | some last =>
      match fmtLoop content (splitStr last "+") format [] with
      | none => ""
      | some (f, vars) =>
        match strfmt f vars with
        | some r => r
        | none => ""

/-- Config::environment accessor (identity on the stored option, modulo the
Rust reference). -/
def Config.environment' (cfg : Config) : Option String :=
  match cfg.environment with
  | some v => some v
  | none => none

/-- Config::get_filename accessor. -/
def Config.get_filename (cfg : Config) : String :=
  cfg.filename

/-- Config::get_file(filename, env): with an environment, run strfmt over
the filename template with the single var "env" and unwrap the result --
the unwrap of an Err panics, modelled as None; without an environment the
filename is used verbatim. -/
def get_file (filename : String) (env : Option String) : Option (String × Option String) :=
  match env with
  | some v => Option.map (fun f => (f, some v)) (strfmt filename [("env", v)])
  | none => some (filename, none)

/-- The two failure sources of Config::load, distinguishable to the caller
(a std::io::Error from fs::read_to_string, or a parse error from
serde_yaml_bw::from_str, both boxed). -/
inductive ConfigError where
  | ioError
  | yamlError

/-- Config::load, with the file system modelled as a partial map from
filenames to contents and the YAML parser as a partial parse function. -/
def load (fs : String → Option String) (parse : String → Option Value)
    (filename : String) : Except ConfigError Value :=
  match fs filename with
  | none => .error .ioError
  | some text =>
    match parse text with
    | none => .error .yamlError
    | some v => .ok v

/-- Config::new(filename, sep, env): resolve the filename (None models the
panic of the unwrap inside get_file), then load and either return the fully
initialized Config or propagate the load error. -/
def new (fs : String → Option String) (parse : String → Option Value)
    (filename sep : String) (env : Option String) : Option (Except ConfigError Config) :=
  match get_file filename env with
  | none => none
  | some (file, env') =>
    match load fs parse file with
    | .ok yaml => some (.ok { content := yaml, filename := file, separator := sep, environment := env' })
    | .error e => some (.error e)

/-- The YAML document of the repository's test module, as a parsed tree. -/
def testTree : Value :=
  .map [
    ("db", .map [
      ("redis", .map [
        ("server", .str "127.0.0.1"),
        ("port", .num 6379),
        ("key_expiry", .num 3600)]),
      ("sql", .map [
        ("driver", .str "SQL Server"),
        ("server", .str "127.0.0.1"),
        ("database", .str "my_db"),
        ("username", .str "user"),
        ("password", .str "Pa$$w0rd!")])]),
    ("sources", .seq [.str "one", .str "two", .str "three"])]

/-- A Config over the test document with separator "/", as produced by
Config::load_yaml in the repository's tests. -/
def cfgTest : Config :=
  { content := testTree, filename := "", separator := "/", environment := none }

/-- The db.sql mapping of the test document. -/
def sqlVal : Value :=
  Value.map [("driver", Value.str "SQL Server"), ("server", Value.str "127.0.0.1"),
    ("database", Value.str "my_db"), ("username", Value.str "user"),
    ("password", Value.str "Pa$$w0rd!")]

/-- Reachability of a node from a starting node by consuming a list of
segments through successive exact mapping lookups. -/
inductive Walks : Value → List String → Value → Prop where
  | nil (v : Value) : Walks v [] v
  | cons {v w u : Value} {s : String} {rest : List String} :
      Value.get v s = some w → Walks w rest u → Walks v (s :: rest) u

/-- A path segment that uses none of the characters the strfmt scanner
treats specially. -/
def cleanSeg (s : String) : Prop :=
  ∀ c ∈ s.data, c ≠ '\x7b' ∧ c ≠ '\x7d' ∧ c ≠ ':'

instance (s : String) : Decidable (cleanSeg s) := by
  unfold cleanSeg; infer_instance

/-- A literal chunk without brace characters. -/
def braceFree (s : String) : Prop :=
  ∀ c ∈ s.data, c ≠ '\x7b' ∧ c ≠ '\x7d'

instance (s : String) : Decidable (braceFree s) := by
  unfold braceFree; infer_instance

/-- Literal chunks interleaved with a fixed infix string: joinWith sep
[a, b, c] is a ++ sep ++ b ++ sep ++ c. -/
def joinWith (sep : String) : List String → String
  | [] => ""
  | [l] => l
  | l :: rest => l ++ sep ++ joinWith sep rest

/-- The shape of the format string built by the attribute loop on a chunk
template: each processed attribute contributes the literal chunk that
preceded its placeholder token and the complete named placeholder that
replaced the token. -/
def renderAcc : List (String × String) → List Char
  | [] => []
  | (lit, name) :: rest => lit.data ++ '\x7b' :: (name.data ++ '\x7d' :: renderAcc rest)

/-- Wellformedness of the accumulated pieces: brace-free literal chunks and
clean nonempty placeholder names. -/
def accOk (ps : List (String × String)) : Prop :=
  ∀ p ∈ ps, braceFree p.1 ∧ cleanSeg p.2 ∧ p.2 ≠ ""

/- Basic lemmas about the split model. -/

/-- splitGo never returns an empty list of segments. -/
theorem splitGo_ne_nil (a : Char) (tail : List Char) :
    ∀ (fuel : Nat) (s : List Char), splitGo a tail fuel s ≠ [] := by
  intro fuel s
  match fuel, s with
  | _, [] => simp [splitGo]
  | 0, _ :: _ => simp [splitGo]
  | fuel + 1, c :: rest =>
    rw [splitGo]
    split
    · simp
    · split <;> simp

/-- Splitting never yields an empty segment list. -/
theorem splitStr_ne_nil (s sep : String) : splitStr s sep ≠ [] := by
  unfold splitStr
  cases hd : sep.data with
  | nil => simp
  | cons a tail => simp [splitGo_ne_nil]

/-- A string in which the head of the separator does not occur is returned
as the one and only segment. -/
theorem splitGo_not_mem (a : Char) (tail : List Char) :
    ∀ (fuel : Nat) (s : List Char), a ∉ s → splitGo a tail fuel s = [s] := by
  intro fuel
  induction fuel with
  | zero => intro s _; cases s <;> rfl
  | succ fuel ih =>
    intro s h
    cases s with
    | nil => rfl
    | cons c rest =>
      rw [splitGo, if_neg, ih rest (fun hm => h (List.mem_cons_of_mem c hm))]
      intro hc
      exact h (hc.1 ▸ List.mem_cons_self c rest)

/-- A last segment without a plus character splits on plus into itself. -/
theorem splitStr_no_plus (s : String) (h : '+' ∉ s.data) : splitStr s "+" = [s] := by
  show (splitGo '+' [] s.data.length s.data).map String.mk = [s]
  rw [splitGo_not_mem '+' [] s.data.length s.data h]
  obtain ⟨d⟩ := s
  rfl

/-- Splitting the empty path on a nonempty separator yields exactly one
empty segment. -/
theorem splitStr_empty_left (sep : String) (h : sep ≠ "") : splitStr "" sep = [""] := by
  obtain ⟨sd⟩ := sep
  cases sd with
  | nil => exact absurd rfl h
  | cons a tail => rfl

/- Lemmas about the lookup walk. -/

/-- Appending one further segment composes the walk with one lookup. -/
theorem walk_append (xs : List String) (x : String) :
    ∀ v : Value, walk v (xs ++ [x]) = (walk v xs).bind (fun n => n.get x) := by
  induction xs with
  | nil =>
    intro v
    cases h : v.get x <;> simp [walk, h]
  | cons s rest ih =>
    intro v
    cases h : v.get s <;> simp [walk, h, ih]

/-- The walk is sound and complete for the reachability relation. -/
theorem walk_iff (segs : List String) :
    ∀ n v : Value, walk n segs = some v ↔ Walks n segs v := by
  induction segs with
  | nil =>
    intro n v
    simp only [walk, Option.some.injEq]
    constructor
    · rintro rfl; exact Walks.nil n
    · intro h; cases h; rfl
  | cons s rest ih =>
    intro n v
    cases h : n.get s with
    | none =>
      simp only [walk, h]
      constructor
      · intro hf; cases hf
      · intro hw
        cases hw with
        | cons h' _ => rw [h] at h'; cases h'
    | some w =>
      simp only [walk, h, ih]
      constructor
      · intro hw; exact Walks.cons h hw
      · intro hw
        cases hw with
        | cons h' hw' =>
          rw [h] at h'
          injection h' with h''
          exact h'' ▸ hw'

/-- If any attribute of the last segment is absent under the parent node,
the attribute loop aborts. -/
theorem fmtLoop_missing (content : Value) :
    ∀ (attrs : List String) (f : String) (vars : List (String × String)),
      (∃ x ∈ attrs, content.get x = none) → fmtLoop content attrs f vars = none := by
  intro attrs
  induction attrs with
  | nil => rintro f vars ⟨x, hx, _⟩; cases hx
  | cons a rest ih =>
    rintro f vars ⟨x, hx, hget⟩
    cases h : content.get a with
    | none => simp [fmtLoop, h]
    | some v =>
      simp only [fmtLoop, h]
      apply ih
      rcases List.mem_cons.mp hx with rfl | hx'
      · rw [h] at hget; cases hget
      · exact ⟨x, hx', hget⟩

/-- A successful mapping lookup returns a strictly smaller node. -/
theorem lookup_sizeOf (k : String) :
    ∀ (m : List (String × Value)) (v : Value),
      m.lookup k = some v → sizeOf v < sizeOf (Value.map m) := by
  intro m
  induction m with
  | nil => intro v h; cases h
  | cons p rest ih =>
    intro v h
    rw [List.lookup] at h
    by_cases hk : k == p.1
    · rw [hk] at h
      injection h with h'
      subst h'
      obtain ⟨k', v'⟩ := p
      simp only [Value.map.sizeOf_spec, List.cons.sizeOf_spec, Prod.mk.sizeOf_spec]
      omega
    · rw [Bool.of_not_eq_true hk] at h
      have := ih v h
      simp only [Value.map.sizeOf_spec, List.cons.sizeOf_spec] at this ⊢
      omega

/-- C4: get splits the path on the configured separator and walks the tree
by exact mapping lookups from the root: it returns some node exactly when
that node is reached by consuming every segment, and a lookup on any
non-mapping node fails, so a missing segment or a non-mapping intermediate
node makes get return none. -/
theorem get_walks_iff (cfg : Config) (path : String) :
    (∀ v : Value, cfg.get path = some v ↔ Walks cfg.content (splitStr path cfg.separator) v) ∧
    (∀ (w : Value) (s : String), (∀ m, w ≠ Value.map m) → w.get s = none) := by
  constructor
  · intro v
    exact walk_iff (splitStr path cfg.separator) cfg.content v
  · intro w s hw
    cases w with
    | map m => exact absurd rfl (hw m)
    | null => rfl
    | bool b => rfl
    | num n => rfl
    | str t => rfl
    | seq xs => rfl

/-- Witness for C4: the repository's own lookup example reaches the redis
port, and a lookup on a sequence node fails. -/
theorem get_walks_iff_witness :
    Walks testTree ["db", "redis", "port"] (Value.num 6379) ∧
      Value.get (Value.seq [Value.str "one"]) "x" = none := by
  constructor
  · exact ((get_walks_iff cfgTest "db/redis/port").1 (Value.num 6379)).mp rfl
  · exact (get_walks_iff cfgTest "db/redis/port").2 (Value.seq [Value.str "one"]) "x"
      (fun m h => Value.noConfusion h)

/-- C5: the str accessor returns the canonical text of a Bool, Number or
String leaf, and the empty string for Null, Sequence, Mapping or an
unresolved path; it never fails (it is a total function into String). -/
theorem str_characterization (cfg : Config) (path : String) :
    (∀ s, cfg.get path = some (Value.str s) → cfg.str path = s) ∧
    (∀ n, cfg.get path = some (Value.num n) → cfg.str path = toString n) ∧
    (∀ b, cfg.get path = some (Value.bool b) → cfg.str path = (if b then "true" else "false")) ∧
    (cfg.get path = some Value.null → cfg.str path = "") ∧
    (∀ xs, cfg.get path = some (Value.seq xs) → cfg.str path = "") ∧
    (∀ m, cfg.get path = some (Value.map m) → cfg.str path = "") ∧
    (cfg.get path = none → cfg.str path = "") := by
  refine ⟨fun s h => ?_, fun n h => ?_, fun b h => ?_, fun h => ?_,
    fun xs h => ?_, fun m h => ?_, fun h => ?_⟩ <;>
  · simp only [Config.get] at h
    simp [Config.str, h, to_string]

/-- Witness for C5: string, number, boolean-free scalar and missing paths
on the test document. -/
theorem str_characterization_witness :
    cfgTest.str "db/sql/database" = "my_db" ∧
      cfgTest.str "db/redis/port" = "6379" ∧
      cfgTest.str "sources" = "" ∧
      cfgTest.str "db/redis/username" = "" :=
  ⟨(str_characterization cfgTest "db/sql/database").1 "my_db" rfl,
    (str_characterization cfgTest "db/redis/port").2.1 6379 rfl,
    (str_characterization cfgTest "sources").2.2.2.2.1 [Value.str "one", Value.str "two", Value.str "three"] rfl,
    (str_characterization cfgTest "db/redis/username").2.2.2.2.2.2 rfl⟩

/-- C6: the list accessor maps the scalar conversion over a Sequence node
elementwise (non-scalar elements becoming empty strings through to_string),
and returns the empty list on any non-Sequence node or unresolved path; it
never fails (it is a total function into List String). -/
theorem list_characterization (cfg : Config) (path : String) :
    (∀ xs, cfg.get path = some (Value.seq xs) → cfg.list path = xs.map to_string) ∧
    (∀ s, cfg.get path = some (Value.str s) → cfg.list path = []) ∧
    (∀ n, cfg.get path = some (Value.num n) → cfg.list path = []) ∧
    (∀ b, cfg.get path = some (Value.bool b) → cfg.list path = []) ∧
    (cfg.get path = some Value.null → cfg.list path = []) ∧
    (∀ m, cfg.get path = some (Value.map m) → cfg.list path = []) ∧
    (cfg.get path = none → cfg.list path = []) := by
  refine ⟨fun xs h => ?_, fun s h => ?_, fun n h => ?_, fun b h => ?_,
    fun h => ?_, fun m h => ?_, fun h => ?_⟩ <;>
  · simp only [Config.get] at h
    simp [Config.list, h, to_list]

/-- Witness for C6: the sources sequence, a mapping node and a missing path
on the test document. -/
theorem list_characterization_witness :
    cfgTest.list "sources" = ["one", "two", "three"] ∧
      cfgTest.list "db" = [] ∧
      cfgTest.list "nope" = [] := by
  refine ⟨?_, ?_, ?_⟩
  · have h := (list_characterization cfgTest "sources").1
      [Value.str "one", Value.str "two", Value.str "three"] rfl
    simpa [to_string] using h
  · exact (list_characterization cfgTest "db").2.2.2.2.2.1
      [("redis", Value.map [("server", Value.str "127.0.0.1"), ("port", Value.num 6379),
        ("key_expiry", Value.num 3600)]),
       ("sql", Value.map [("driver", Value.str "SQL Server"), ("server", Value.str "127.0.0.1"),
        ("database", Value.str "my_db"), ("username", Value.str "user"),
        ("password", Value.str "Pa$$w0rd!")])] rfl
  · exact (list_characterization cfgTest "nope").2.2.2.2.2.2 rfl

/-- C9: with a nonempty separator (the faithful domain of the split model),
get applied to the empty path performs literal segment splitting, yielding
the single empty segment, hence exactly one mapping lookup of the key named
by the empty string at the root; and whatever that lookup returns is never
the root node itself. -/
theorem get_empty_path (cfg : Config) (hsep : cfg.separator ≠ "") :
    cfg.get "" = cfg.content.get "" ∧ (∀ v, cfg.get "" = some v → v ≠ cfg.content) := by
  have hget : cfg.get "" = cfg.content.get "" := by
    unfold Config.get get_leaf
    rw [splitStr_empty_left cfg.separator hsep]
    cases h : cfg.content.get "" with
    | none => simp [walk, h]
    | some w => simp [walk, h]
  refine ⟨hget, fun v hv heq => ?_⟩
  rw [hget] at hv
  cases hc : cfg.content with
  | map m =>
    rw [hc] at hv
    have hlt : sizeOf v < sizeOf (Value.map m) := lookup_sizeOf "" m v hv
    rw [heq, hc] at hlt
    exact absurd hlt (lt_irrefl _)
  | null => rw [hc] at hv; cases hv
  | bool b => rw [hc] at hv; cases hv
  | num n => rw [hc] at hv; cases hv
  | str s => rw [hc] at hv; cases hv
  | seq xs => rw [hc] at hv; cases hv

/-- Witness for C9: on the test document the empty path performs the single
lookup of the empty key at the root, which is absent. -/
theorem get_empty_path_witness : cfgTest.get "" = Value.get cfgTest.content "" :=
  (get_empty_path cfgTest (by decide)).1

/-- C2: fmt returns the empty string as soon as any parent segment fails to
resolve from the root, and likewise, with the parents resolved, as soon as
any plus-separated attribute of the last segment is absent under the parent
node: the whole operation aborts with no partial substitution. -/
theorem fmt_missing_empty (cfg : Config) (tmpl path : String) (_hsep : cfg.separator ≠ "") :
    (walk cfg.content (splitStr path cfg.separator).dropLast = none → cfg.fmt tmpl path = "") ∧
    (∀ (n : Value) (last : String),
      walk cfg.content (splitStr path cfg.separator).dropLast = some n →
      (splitStr path cfg.separator).getLast? = some last →
      (∃ x ∈ splitStr last "+", n.get x = none) →
      cfg.fmt tmpl path = "") := by
  constructor
  · intro h
    simp [Config.fmt, h]
  · intro n last hw hl hex
    simp [Config.fmt, hw, hl, fmtLoop_missing n (splitStr last "+") tmpl [] hex]

/-- Witness for C2: a missing attribute under a resolved parent aborts fmt
on the test document. -/
theorem fmt_missing_empty_witness : cfgTest.fmt "x" "db/sql/nope" = "" := by
  refine (fmt_missing_empty cfgTest "x" "db/sql/nope" (by decide)).2
    (Value.map [("driver", Value.str "SQL Server"), ("server", Value.str "127.0.0.1"),
      ("database", Value.str "my_db"), ("username", Value.str "user"),
      ("password", Value.str "Pa$$w0rd!")])
    "nope" rfl rfl ⟨"nope", by decide, rfl⟩

/- Lemmas about the strfmt scanner. -/

/-- Rebuilding a string from its characters is the identity. -/
theorem mkData (s : String) : String.mk s.data = s := by
  obtain ⟨d⟩ := s
  rfl

/-- An ordinary character passes through the scanner. -/
theorem strfmtGo_text_char (vars : List (String × String)) (c : Char) (rest : List Char)
    (h1 : c ≠ '\x7b') (h2 : c ≠ '\x7d') :
    strfmtGo vars (c :: rest) .text = Option.map (fun r => c :: r) (strfmtGo vars rest .text) := by
  simp [strfmtGo, h1, h2]

/-- A brace-free literal chunk passes through the scanner unchanged. -/
theorem strfmtGo_text_append (vars : List (String × String)) (lit : List Char)
    (hlit : ∀ c ∈ lit, c ≠ '\x7b' ∧ c ≠ '\x7d') (rest : List Char) :
    strfmtGo vars (lit ++ rest) .text =
      Option.map (fun r => lit ++ r) (strfmtGo vars rest .text) := by
  induction lit with
  | nil =>
    cases h : strfmtGo vars rest FmtState.text <;> simp [h]
  | cons c cs ih =>
    have hc := hlit c (List.mem_cons_self c cs)
    rw [List.cons_append, strfmtGo_text_char vars c (cs ++ rest) hc.1 hc.2,
      ih (fun x hx => hlit x (List.mem_cons_of_mem c hx))]
    cases h : strfmtGo vars rest FmtState.text <;> simp [h]

/-- An ordinary character inside a placeholder extends the identifier. -/
theorem strfmtGo_ident_char (vars : List (String × String)) (c : Char) (rest : List Char)
    (acc : List Char) (h1 : c ≠ '\x7d') (h2 : c ≠ ':') (h3 : c ≠ '\x7b') :
    strfmtGo vars (c :: rest) (.ident acc) = strfmtGo vars rest (.ident (acc ++ [c])) := by
  simp [strfmtGo, h1, h2, h3]

/-- Scanning a clean identifier up to its closing brace resolves it against
vars:  on a hit the value is emitted and scanning continues, on a miss the
whole format fails. -/
theorem strfmtGo_ident_name (vars : List (String × String)) (name : List Char)
    (hname : ∀ c ∈ name, c ≠ '\x7b' ∧ c ≠ '\x7d' ∧ c ≠ ':') (rest : List Char) :
    ∀ acc, strfmtGo vars (name ++ '\x7d' :: rest) (.ident acc) =
      match vars.lookup (String.mk (acc ++ name)) with
      | some v => Option.map (fun r => v.data ++ r) (strfmtGo vars rest .text)
      | none => none := by
  induction name with
  | nil =>
    intro acc
    cases h : vars.lookup (String.mk (acc ++ [])) with
    | none => simp only [List.nil_append] at h ⊢; rw [List.append_nil] at h; simp [strfmtGo, h]
    | some v => simp only [List.nil_append] at h ⊢; rw [List.append_nil] at h; simp [strfmtGo, h]
  | cons c cs ih =>
    intro acc
    have hc := hname c (List.mem_cons_self c cs)
    rw [List.cons_append, strfmtGo_ident_char vars c (cs ++ '\x7d' :: rest) acc hc.2.1 hc.2.2 hc.1,
      ih (fun x hx => hname x (List.mem_cons_of_mem c hx)) (acc ++ [c])]
    rw [List.append_assoc, List.singleton_append]

/-- A placeholder whose identifier is clean resolves against vars. -/
theorem strfmtGo_placeholder (vars : List (String × String)) (name : List Char)
    (hname : ∀ c ∈ name, c ≠ '\x7b' ∧ c ≠ '\x7d' ∧ c ≠ ':') (rest : List Char) :
    strfmtGo vars ('\x7b' :: (name ++ '\x7d' :: rest)) .text =
      match vars.lookup (String.mk name) with
      | some v => Option.map (fun r => v.data ++ r) (strfmtGo vars rest .text)
      | none => none := by
  have hopen : strfmtGo vars ('\x7b' :: (name ++ '\x7d' :: rest)) .text =
      strfmtGo vars (name ++ '\x7d' :: rest) (.ident []) := by
    cases name with
    | nil => simp [strfmtGo]
    | cons c cs =>
      have hc := hname c (List.mem_cons_self c cs)
      simp [strfmtGo, hc.1]
  rw [hopen, strfmtGo_ident_name vars name hname rest []]
  rw [List.nil_append]

/-- The single-placeholder template over a clean name substitutes the bound
value. -/
theorem strfmt_single (name out : String) (hname : cleanSeg name) :
    strfmt ("\x7b" ++ name ++ "\x7d") [(name, out)] = some out := by
  unfold strfmt
  have hdata : ("\x7b" ++ name ++ "\x7d").data = '\x7b' :: (name.data ++ '\x7d' :: []) := by
    rw [String.data_append, String.data_append]
    simp
  rw [hdata, strfmtGo_placeholder [(name, out)] name.data hname []]
  rw [mkData]
  simp [List.lookup, strfmtGo, mkData]

/- Lemmas about replaceFirst. -/

/-- Replacing the placeholder token in the bare placeholder-token string
yields the replacement itself. -/
theorem replaceFirst_self (rep : String) : replaceFirst "\x7b\x7d" "\x7b\x7d" rep = rep := by
  show String.mk (replaceFirstAux ['\x7b', '\x7d'] rep.data ['\x7b', '\x7d']) = rep
  rw [show replaceFirstAux ['\x7b', '\x7d'] rep.data ['\x7b', '\x7d'] =
    rep.data ++ List.drop 2 ['\x7b', '\x7d'] from rfl]
  simp [mkData]

/-- The scan skips a character that cannot start the placeholder token. -/
theorem replaceFirstAux_skip (p rep : List Char) (c : Char) (l : List Char) (hc : c ≠ '\x7b') :
    replaceFirstAux ('\x7b' :: p) rep (c :: l) = c :: replaceFirstAux ('\x7b' :: p) rep l := by
  rw [replaceFirstAux, if_neg]
  simp only [List.isPrefixOf, Bool.and_eq_true, beq_iff_eq]
  intro h
  exact hc h.1.symm

/-- The scan skips an opening brace not followed by a closing brace. -/
theorem replaceFirstAux_skip_open (rep : List Char) (c : Char) (l : List Char) (hc : c ≠ '\x7d') :
    replaceFirstAux ['\x7b', '\x7d'] rep ('\x7b' :: c :: l) =
      '\x7b' :: replaceFirstAux ['\x7b', '\x7d'] rep (c :: l) := by
  rw [replaceFirstAux, if_neg]
  simp only [List.isPrefixOf, Bool.and_eq_true, beq_iff_eq]
  intro h
  exact hc h.2.1.symm

/-- The placeholder token is replaced where it occurs. -/
theorem replaceFirstAux_here (rep l : List Char) :
    replaceFirstAux ['\x7b', '\x7d'] rep ('\x7b' :: '\x7d' :: l) = rep ++ l := by
  simp [replaceFirstAux, List.isPrefixOf]

/-- The scan passes over a chunk free of opening braces. -/
theorem replaceFirstAux_skip_chunk (rep chunk : List Char)
    (h : ∀ c ∈ chunk, c ≠ '\x7b') (l : List Char) :
    replaceFirstAux ['\x7b', '\x7d'] rep (chunk ++ l) =
      chunk ++ replaceFirstAux ['\x7b', '\x7d'] rep l := by
  induction chunk with
  | nil => simp
  | cons c cs ih =>
    rw [List.cons_append, replaceFirstAux_skip ['\x7d'] rep c (cs ++ l)
      (h c (List.mem_cons_self c cs)), ih (fun x hx => h x (List.mem_cons_of_mem c hx))]
    rfl

/-- The scan passes over a whole named placeholder with a nonempty
brace-free identifier. -/
theorem replaceFirstAux_skip_named (rep : List Char) (c : Char) (inner l : List Char)
    (hc : c ≠ '\x7b' ∧ c ≠ '\x7d') (hin : ∀ x ∈ inner, x ≠ '\x7b' ∧ x ≠ '\x7d') :
    replaceFirstAux ['\x7b', '\x7d'] rep (('\x7b' :: c :: inner ++ ['\x7d']) ++ l) =
      ('\x7b' :: c :: inner ++ ['\x7d']) ++ replaceFirstAux ['\x7b', '\x7d'] rep l := by
  have hstep := replaceFirstAux_skip_open rep c ((inner ++ ['\x7d']) ++ l) hc.2
  have hchunk : ∀ x ∈ c :: inner ++ ['\x7d'], x ≠ '\x7b' := by
    intro x hx
    rcases List.mem_cons.mp hx with rfl | hx'
    · exact hc.1
    · rcases List.mem_append.mp hx' with hx'' | hx''
      · exact (hin x hx'').1
      · rcases List.mem_singleton.mp hx'' with rfl
        intro hfalse
        cases hfalse
  calc replaceFirstAux ['\x7b', '\x7d'] rep (('\x7b' :: c :: inner ++ ['\x7d']) ++ l)
      = replaceFirstAux ['\x7b', '\x7d'] rep ('\x7b' :: c :: ((inner ++ ['\x7d']) ++ l)) := by
        simp
    _ = '\x7b' :: replaceFirstAux ['\x7b', '\x7d'] rep (c :: ((inner ++ ['\x7d']) ++ l)) := by
        exact hstep
    _ = '\x7b' :: ((c :: inner ++ ['\x7d']) ++ replaceFirstAux ['\x7b', '\x7d'] rep l) := by
        rw [show c :: ((inner ++ ['\x7d']) ++ l) = (c :: inner ++ ['\x7d']) ++ l by simp]
        rw [replaceFirstAux_skip_chunk rep (c :: inner ++ ['\x7d']) hchunk l]
    _ = ('\x7b' :: c :: inner ++ ['\x7d']) ++ replaceFirstAux ['\x7b', '\x7d'] rep l := by
        simp

/- Lemmas about the attribute loop. -/

/-- One successful iteration of the attribute loop. -/
theorem fmtLoop_cons_some (content : Value) (item : String) (v : Value)
    (h : content.get item = some v) (rest : List String) (f : String)
    (vars : List (String × String)) :
    fmtLoop content (item :: rest) f vars =
      fmtLoop content rest (replaceFirst f "\x7b\x7d" ("\x7b" ++ item ++ "\x7d"))
        ((item, to_string v) :: vars) := by
  simp [fmtLoop, h]

/-- A failing iteration of the attribute loop aborts it. -/
theorem fmtLoop_cons_none (content : Value) (item : String)
    (h : content.get item = none) (rest : List String) (f : String)
    (vars : List (String × String)) :
    fmtLoop content (item :: rest) f vars = none := by
  simp [fmtLoop, h]

/-- C1: over the test document (db.sql.database = "my_db", db.sql.username =
"user"), fmt with template of two placeholder tokens separated by a colon
and path "db/sql/database+username" walks the parents db, sql, splits the
last segment on '+' into database and username, replaces the placeholder
tokens in order by the named placeholders, and the named substitution
returns "my_db:user". -/
theorem fmt_example : cfgTest.fmt "\x7b\x7d:\x7b\x7d" "db/sql/database+username" = "my_db:user" :=
  rfl

/-- Counterexample for C3 as stated: a template with fewer placeholder
tokens than attributes does not return the empty string -- the extra
attribute is simply never substituted and the partially substituted result
is returned.  Here one placeholder against the two resolved attributes
database and username yields "my_db". -/
theorem fmt_fewer_placeholders_cx :
    cfgTest.fmt "\x7b\x7d" "db/sql/database+username" = "my_db" ∧
      cfgTest.fmt "\x7b\x7d" "db/sql/database+username" ≠ "" :=
  ⟨rfl, by decide⟩

/-- A nonempty string starts with some character. -/
theorem data_of_ne_empty (s : String) (h : s ≠ "") : ∃ c cs, s.data = c :: cs := by
  cases hd : s.data with
  | nil => exact absurd (by rw [← mkData s, hd]) h
  | cons c cs => exact ⟨c, cs, rfl⟩

/-- The most recent binding of a key is found first. -/
theorem lookup_cons_self (k v : String) (vars : List (String × String)) :
    List.lookup k ((k, v) :: vars) = some v := by
  simp [List.lookup]

/-- A binding for a different key does not affect a lookup. -/
theorem lookup_cons_ne (k k' v : String) (vars : List (String × String)) (h : k ≠ k') :
    List.lookup k ((k', v) :: vars) = List.lookup k vars := by
  simp [List.lookup, beq_eq_false_iff_ne.mpr h]

/-- Inserting a binding never makes an existing key unresolvable. -/
theorem lookup_isSome_cons (k : String) (p : String × String) (vars : List (String × String))
    (h : (List.lookup k vars).isSome) : (List.lookup k (p :: vars)).isSome := by
  obtain ⟨k', v'⟩ := p
  by_cases hk : k = k'
  · subst hk; simp [List.lookup]
  · simp [List.lookup, beq_eq_false_iff_ne.mpr hk, h]

/-- Appending one processed attribute to the accumulated pieces. -/
theorem renderAcc_append (ps : List (String × String)) (q : String × String) :
    renderAcc (ps ++ [q]) = renderAcc ps ++ (q.1.data ++ '\x7b' :: (q.2.data ++ ['\x7d'])) := by
  induction ps with
  | nil => obtain ⟨l, n⟩ := q; simp [renderAcc]
  | cons p rest ih => obtain ⟨l, n⟩ := p; simp [renderAcc, ih]

/-- The replacen scan passes over the accumulated pieces without finding a
placeholder token. -/
theorem renderAcc_skip (ps : List (String × String)) (hok : accOk ps) (rep l : List Char) :
    replaceFirstAux ['\x7b', '\x7d'] rep (renderAcc ps ++ l) =
      renderAcc ps ++ replaceFirstAux ['\x7b', '\x7d'] rep l := by
  induction ps generalizing l with
  | nil => rfl
  | cons p rest ih =>
    obtain ⟨lit, name⟩ := p
    have hp := hok (lit, name) (List.mem_cons_self _ _)
    obtain ⟨c, cs, hcs⟩ := data_of_ne_empty name hp.2.2
    have hcchar : c ≠ '\x7b' ∧ c ≠ '\x7d' := by
      have hx := hp.2.1 c (by rw [hcs]; exact List.mem_cons_self c cs)
      exact ⟨hx.1, hx.2.1⟩
    have hcschar : ∀ x ∈ cs, x ≠ '\x7b' ∧ x ≠ '\x7d' := by
      intro x hx
      have hy := hp.2.1 x (by rw [hcs]; exact List.mem_cons_of_mem c hx)
      exact ⟨hy.1, hy.2.1⟩
    have hshape : renderAcc ((lit, name) :: rest) ++ l =
        lit.data ++ (('\x7b' :: c :: cs ++ ['\x7d']) ++ (renderAcc rest ++ l)) := by
      rw [renderAcc, hcs]
      simp
    rw [hshape]
    rw [replaceFirstAux_skip_chunk rep lit.data (fun x hx => (hp.1 x hx).1) _]
    rw [replaceFirstAux_skip_named rep c cs _ hcchar hcschar]
    rw [ih (fun q hq => hok q (List.mem_cons_of_mem _ hq)) l]
    rw [renderAcc, hcs]
    simp

/-- The strfmt scanner passes over the accumulated pieces, emitting the
literal chunks and the values of the resolved names. -/
theorem renderAcc_scan (vars : List (String × String)) (ps : List (String × String))
    (hok : accOk ps) (hres : ∀ p ∈ ps, (List.lookup p.2 vars).isSome) :
    ∃ out : List Char, ∀ l, strfmtGo vars (renderAcc ps ++ l) .text =
      Option.map (fun r => out ++ r) (strfmtGo vars l .text) := by
  induction ps with
  | nil =>
    refine ⟨[], fun l => ?_⟩
    cases h : strfmtGo vars l FmtState.text <;> simp [h, renderAcc]
  | cons p rest ih =>
    obtain ⟨lit, name⟩ := p
    have hp := hok (lit, name) (List.mem_cons_self _ _)
    obtain ⟨out, hout⟩ := ih (fun q hq => hok q (List.mem_cons_of_mem _ hq))
      (fun q hq => hres q (List.mem_cons_of_mem _ hq))
    obtain ⟨v, hv⟩ := Option.isSome_iff_exists.mp (hres (lit, name) (List.mem_cons_self _ _))
    refine ⟨lit.data ++ (v.data ++ out), fun l => ?_⟩
    have hshape : renderAcc ((lit, name) :: rest) ++ l =
        lit.data ++ ('\x7b' :: (name.data ++ '\x7d' :: (renderAcc rest ++ l))) := by
      rw [renderAcc]
      simp
    rw [hshape]
    rw [strfmtGo_text_append vars lit.data hp.1 _]
    rw [strfmtGo_placeholder vars name.data hp.2.1 _]
    rw [mkData name, hv, hout l]
    cases h : strfmtGo vars l FmtState.text <;> simp [h, List.append_assoc]

/-- After the accumulated pieces, a brace-free literal and then a bare
leftover placeholder token, the scan fails: the token's empty identifier is
not bound in vars. -/
theorem strfmtGo_acc_leftover (vars ps : List (String × String)) (hok : accOk ps)
    (hres : ∀ p ∈ ps, (List.lookup p.2 vars).isSome)
    (h0 : List.lookup "" vars = none)
    (r0 : String) (hr0 : braceFree r0) (tail : List Char) :
    strfmtGo vars (renderAcc ps ++ (r0.data ++ '\x7b' :: '\x7d' :: tail)) .text = none := by
  obtain ⟨out, hout⟩ := renderAcc_scan vars ps hok hres
  rw [hout]
  rw [strfmtGo_text_append vars r0.data hr0 _]
  rw [show ('\x7b' :: '\x7d' :: tail : List Char) = '\x7b' :: ([] ++ '\x7d' :: tail) from rfl]
  rw [strfmtGo_placeholder vars [] (by simp) tail]
  rw [show (String.mk [] : String) = "" from rfl, h0]
  rfl

/-- Splitting off the first chunk of a template with at least two chunks. -/
theorem joinWith_cons₂ (l0 l1 : String) (ls : List String) :
    (joinWith "\x7b\x7d" (l0 :: l1 :: ls)).data =
      l0.data ++ '\x7b' :: '\x7d' :: (joinWith "\x7b\x7d" (l1 :: ls)).data := by
  show ((l0 ++ "\x7b\x7d" ++ joinWith "\x7b\x7d" (l1 :: ls))).data = _
  rw [String.data_append, String.data_append]
  rw [show ("\x7b\x7d" : String).data = ['\x7b', '\x7d'] from rfl]
  simp

/-- One replacen step on a chunk template: the scan passes over the
accumulated pieces and the first literal chunk, replaces the first
placeholder token with the named placeholder of the attribute, and the
result accumulates the merged piece. -/
theorem replaceFirst_chunk_step (ps : List (String × String)) (hok : accOk ps)
    (a l0 l1 : String) (ls : List String) (hl0 : braceFree l0) :
    replaceFirst (String.mk (renderAcc ps ++ (joinWith "\x7b\x7d" (l0 :: l1 :: ls)).data))
      "\x7b\x7d" ("\x7b" ++ a ++ "\x7d") =
      String.mk (renderAcc (ps ++ [(l0, a)]) ++ (joinWith "\x7b\x7d" (l1 :: ls)).data) := by
  unfold replaceFirst
  congr 1
  rw [show ("\x7b\x7d" : String).data = ['\x7b', '\x7d'] from rfl]
  rw [show (String.mk (renderAcc ps ++ (joinWith "\x7b\x7d" (l0 :: l1 :: ls)).data)).data =
    renderAcc ps ++ (joinWith "\x7b\x7d" (l0 :: l1 :: ls)).data from rfl]
  rw [joinWith_cons₂]
  rw [renderAcc_skip ps hok _ _]
  rw [replaceFirstAux_skip_chunk _ l0.data (fun x hx => (hl0 x hx).1) _]
  rw [replaceFirstAux_here]
  rw [renderAcc_append]
  rw [show ("\x7b" ++ a ++ "\x7d" : String).data = '\x7b' :: (a.data ++ ['\x7d']) from by
    rw [String.data_append, String.data_append]; simp]
  simp

/-- The attribute loop on a chunk template with more chunks than attributes:
every attribute resolves and consumes one placeholder token, merging into
the accumulated pieces; the remaining chunks are untouched, every processed
name resolves in the final vars, and the empty name stays unbound. -/
theorem fmtLoop_chunks (content : Value) :
    ∀ (attrs lits : List String) (ps vars : List (String × String)),
      (∀ a ∈ attrs, cleanSeg a ∧ a ≠ "" ∧ (content.get a).isSome) →
      (∀ l ∈ lits, braceFree l) →
      accOk ps →
      (∀ p ∈ ps, (List.lookup p.2 vars).isSome) →
      attrs.length < lits.length →
      ∃ ps' vars' : List (String × String),
        fmtLoop content attrs (String.mk (renderAcc ps ++ (joinWith "\x7b\x7d" lits).data)) vars =
          some (String.mk (renderAcc ps' ++ (joinWith "\x7b\x7d" (lits.drop attrs.length)).data), vars') ∧
        accOk ps' ∧
        (∀ p ∈ ps', (List.lookup p.2 vars').isSome) ∧
        (List.lookup "" vars = none → List.lookup "" vars' = none) := by
  intro attrs
  induction attrs with
  | nil =>
    intro lits ps vars _ _ hok hres _
    exact ⟨ps, vars, by simp [fmtLoop], hok, hres, fun h => h⟩
  | cons a rest ih =>
    intro lits ps vars hattrs hlits hok hres hlen
    have ha := hattrs a (List.mem_cons_self _ _)
    obtain ⟨v, hv⟩ := Option.isSome_iff_exists.mp ha.2.2
    obtain ⟨l0, l1, ls, hsplit⟩ : ∃ l0 l1 ls, lits = l0 :: l1 :: ls := by
      match hd : lits with
      | [] => exact absurd hlen (by simp)
      | [x] => simp at hlen
      | l0 :: l1 :: ls => exact ⟨l0, l1, ls, rfl⟩
    subst hsplit
    have hstep1 : fmtLoop content (a :: rest)
        (String.mk (renderAcc ps ++ (joinWith "\x7b\x7d" (l0 :: l1 :: ls)).data)) vars =
        fmtLoop content rest
          (String.mk (renderAcc (ps ++ [(l0, a)]) ++ (joinWith "\x7b\x7d" (l1 :: ls)).data))
          ((a, to_string v) :: vars) := by
      rw [fmtLoop_cons_some content a v hv]
      rw [replaceFirst_chunk_step ps hok a l0 l1 ls (hlits l0 (List.mem_cons_self _ _))]
    have hok' : accOk (ps ++ [(l0, a)]) := by
      intro p hp
      rcases List.mem_append.mp hp with hp' | hp'
      · exact hok p hp'
      · rcases List.mem_singleton.mp hp' with rfl
        exact ⟨hlits l0 (List.mem_cons_self _ _), ha.1, ha.2.1⟩
    have hres' : ∀ p ∈ ps ++ [(l0, a)], (List.lookup p.2 ((a, to_string v) :: vars)).isSome := by
      intro p hp
      rcases List.mem_append.mp hp with hp' | hp'
      · exact lookup_isSome_cons _ _ _ (hres p hp')
      · rcases List.mem_singleton.mp hp' with rfl
        rw [show ((l0, a) : String × String).2 = a from rfl, lookup_cons_self]
        rfl
    obtain ⟨ps', vars', hloop, hok'', hres'', h0⟩ := ih (l1 :: ls) (ps ++ [(l0, a)])
      ((a, to_string v) :: vars)
      (fun x hx => hattrs x (List.mem_cons_of_mem _ hx))
      (fun x hx => hlits x (List.mem_cons_of_mem _ hx))
      hok' hres'
      (by simp only [List.length_cons] at hlen ⊢; omega)
    refine ⟨ps', vars', ?_, hok'', hres'', ?_⟩
    · rw [hstep1, hloop]
      rfl
    · intro hnone
      apply h0
      rw [lookup_cons_ne "" a (to_string v) vars (fun h => ha.2.1 h.symm)]
      exact hnone

/-- C3 (amended): fmt never raises; but the placeholder-count claim only
fails one way.  For any chunk template (brace-free literal chunks separated
by bare placeholder tokens) with more tokens than attributes, over any
config and path whose parents resolve and whose '+'-separated attributes
all resolve with nonempty brace- and colon-free names, the extra token is
left as a bare placeholder whose empty name is unbound, so the named
substitution fails and fmt returns the empty string.  With fewer tokens
than attributes there is no empty-string guarantee: the extra attributes
are simply never given a placeholder and fmt returns the partially
substituted string (see the counterexample). -/
theorem fmt_more_placeholders (cfg : Config) (path : String) (lits : List String)
    (n : Value) (last : String)
    (hbf : ∀ l ∈ lits, braceFree l)
    (hw : walk cfg.content (splitStr path cfg.separator).dropLast = some n)
    (hl : (splitStr path cfg.separator).getLast? = some last)
    (hattrs : ∀ a ∈ splitStr last "+", cleanSeg a ∧ a ≠ "" ∧ (Value.get n a).isSome)
    (hcount : (splitStr last "+").length + 1 < lits.length) :
    cfg.fmt (joinWith "\x7b\x7d" lits) path = "" := by
  obtain ⟨ps', vars', hloop, hok', hres', h0⟩ := fmtLoop_chunks n (splitStr last "+") lits [] []
    hattrs hbf (fun p hp => absurd hp (List.not_mem_nil p))
    (fun p hp => absurd hp (List.not_mem_nil p)) (by omega)
  have h0' : List.lookup "" vars' = none := h0 rfl
  rw [show String.mk (renderAcc [] ++ (joinWith "\x7b\x7d" lits).data) = joinWith "\x7b\x7d" lits
    from by rw [show renderAcc [] = ([] : List Char) from rfl, List.nil_append, mkData]] at hloop
  obtain ⟨r0, r1, rs, hdrop⟩ : ∃ r0 r1 rs,
      lits.drop (splitStr last "+").length = r0 :: r1 :: rs := by
    have hlen2 : 2 ≤ (lits.drop (splitStr last "+").length).length := by
      rw [List.length_drop]
      omega
    match hd : lits.drop (splitStr last "+").length with
    | [] => rw [hd] at hlen2; exact absurd hlen2 (by simp)
    | [x] => rw [hd] at hlen2; exact absurd hlen2 (by simp)
    | r0 :: r1 :: rs => exact ⟨r0, r1, rs, rfl⟩
  have hr0 : braceFree r0 :=
    hbf r0 (List.drop_subset _ lits (by rw [hdrop]; exact List.mem_cons_self _ _))
  have hnone : strfmt (String.mk (renderAcc ps' ++
      (joinWith "\x7b\x7d" (lits.drop (splitStr last "+").length)).data)) vars' = none := by
    unfold strfmt
    rw [show (String.mk (renderAcc ps' ++
      (joinWith "\x7b\x7d" (lits.drop (splitStr last "+").length)).data)).data =
      renderAcc ps' ++ (joinWith "\x7b\x7d" (lits.drop (splitStr last "+").length)).data from rfl]
    rw [hdrop, joinWith_cons₂]
    rw [strfmtGo_acc_leftover vars' ps' hok' hres' h0' r0 hr0 _]
    rfl
  simp only [Config.fmt, hw, hl, hloop, hnone]

/-- Witness for C3 (amended): three placeholder tokens against the two
resolved attributes of the test document yield the empty string. -/
theorem fmt_more_placeholders_witness :
    cfgTest.fmt "\x7b\x7d\x7b\x7d\x7b\x7d" "db/sql/database+username" = "" := by
  have h := fmt_more_placeholders cfgTest "db/sql/database+username" ["", "", "", ""]
    sqlVal "database+username" (by decide) rfl rfl (by decide) (by decide)
  exact h

/-- C10: when the last separator-split segment contains no plus character
and every segment is free of braces and colons (and the separator is
nonempty, the faithful domain of the split model), fmt with the
single-placeholder-token template agrees with the plain string accessor. -/
theorem fmt_single_eq_str (cfg : Config) (path : String) (_hsep : cfg.separator ≠ "")
    (hclean : ∀ part ∈ splitStr path cfg.separator, cleanSeg part)
    (hplus : '+' ∉ ((splitStr path cfg.separator).getLastD "").data) :
    cfg.fmt "\x7b\x7d" path = cfg.str path := by
  have hne := splitStr_ne_nil path cfg.separator
  have hl : (splitStr path cfg.separator).getLast? =
      some ((splitStr path cfg.separator).getLast hne) :=
    List.getLast?_eq_getLast _ hne
  generalize hlast : (splitStr path cfg.separator).getLast hne = last at hl
  have hparts : splitStr path cfg.separator = (splitStr path cfg.separator).dropLast ++ [last] := by
    rw [← hlast]
    exact (List.dropLast_append_getLast hne).symm
  have hmem : last ∈ splitStr path cfg.separator := by
    rw [hparts]
    exact List.mem_append_right _ (List.mem_singleton_self last)
  have hlastclean := hclean last hmem
  have hpl : '+' ∉ last.data := by
    rw [hparts, List.getLastD_concat] at hplus
    exact hplus
  have hattrs : splitStr last "+" = [last] := splitStr_no_plus last hpl
  cases hw : walk cfg.content ((splitStr path cfg.separator).dropLast) with
  | none =>
    have hfull : walk cfg.content (splitStr path cfg.separator) = none := by
      rw [hparts, walk_append, hw]
      rfl
    have hfmt : cfg.fmt "\x7b\x7d" path = "" := by
      simp only [Config.fmt, hw]
    have hstr : cfg.str path = "" := by
      simp only [Config.str, get_leaf, hfull]
    rw [hfmt, hstr]
  | some n =>
    cases hv : n.get last with
    | none =>
      have hfull : walk cfg.content (splitStr path cfg.separator) = none := by
        rw [hparts, walk_append, hw]
        simpa using hv
      have hfmt : cfg.fmt "\x7b\x7d" path = "" := by
        simp only [Config.fmt, hw, hl, hattrs, fmtLoop_cons_none n last hv]
      have hstr : cfg.str path = "" := by
        simp only [Config.str, get_leaf, hfull]
      rw [hfmt, hstr]
    | some v =>
      have hfull : walk cfg.content (splitStr path cfg.separator) = some v := by
        rw [hparts, walk_append, hw]
        simpa using hv
      have hfmt : cfg.fmt "\x7b\x7d" path = to_string v := by
        simp only [Config.fmt, hw, hl, hattrs]
        rw [fmtLoop_cons_some n last v hv [] "\x7b\x7d" []]
        simp only [fmtLoop]
        rw [replaceFirst_self, strfmt_single last (to_string v) hlastclean]
      have hstr : cfg.str path = to_string v := by
        simp only [Config.str, get_leaf, hfull]
      rw [hfmt, hstr]

/-- Witness for C10: the single-placeholder fmt and str agree on a resolved
leaf of the test document. -/
theorem fmt_single_eq_str_witness :
    cfgTest.fmt "\x7b\x7d" "db/redis/server" = cfgTest.str "db/redis/server" :=
  fmt_single_eq_str cfgTest "db/redis/server" (by decide) (by decide) (by decide)

/-- Counterexample for C7 as stated: with an environment supplied and a
filename template holding a placeholder other than env, strfmt fails and
the unwrap inside get_file panics (the outer none of the model): the
failure of filename-template resolution escapes by a panic instead of being
returned as an error. -/
theorem new_template_panics :
    new (fun _ => none) (fun _ => none) "config_\x7bunknown\x7d.yaml" "/" (some "dev") = none :=
  rfl

/-- C7 (amended): once the filename template resolves, construction is
all-or-nothing and every failure is surfaced as a distinguishable returned
error: a missing or unreadable file yields the io error, unparsable text
yields the yaml error, and otherwise the fully initialized Config is
returned; but a filename-template resolution failure panics instead of
being returned (see the counterexample). -/
theorem new_propagates (fs : String → Option String) (parse : String → Option Value)
    (filename sep : String) (env : Option String) (file : String) (env' : Option String)
    (h : get_file filename env = some (file, env')) :
    (fs file = none → new fs parse filename sep env = some (.error .ioError)) ∧
    (∀ text, fs file = some text → parse text = none →
      new fs parse filename sep env = some (.error .yamlError)) ∧
    (∀ text yaml, fs file = some text → parse text = some yaml →
      new fs parse filename sep env =
        some (.ok { content := yaml, filename := file, separator := sep, environment := env' })) := by
  refine ⟨fun hf => ?_, fun text hf hp => ?_, fun text yaml hf hp => ?_⟩
  · simp [new, h, load, hf]
  · simp [new, h, load, hf, hp]
  · simp [new, h, load, hf, hp]

/-- Witness for C7: a successful construction returns the fully initialized
Config. -/
theorem new_propagates_witness :
    new (fun _ => some "k: v") (fun _ => some (Value.map [("k", Value.str "v")]))
      "config.yaml" "/" none =
      some (Except.ok (Config.mk (Value.map [("k", Value.str "v")]) "config.yaml" "/" none)) :=
  (new_propagates (fun _ => some "k: v") (fun _ => some (Value.map [("k", Value.str "v")]))
    "config.yaml" "/" none "config.yaml" none rfl).2.2 "k: v" (Value.map [("k", Value.str "v")])
    rfl rfl

/-- Counterexample for C8 as stated: not every template with an environment
produces a resolved filename -- a placeholder other than env makes the
unwrap inside get_file panic, so no filename or environment is stored at
all. -/
theorem get_file_panics : get_file "conf_\x7boops\x7d.yml" (some "prod") = none :=
  rfl

/-- The scanner substitutes env for every env placeholder of a template
whose literal chunks are brace-free. -/
theorem strfmtGo_env_join (v : String) (rest : List Char) :
    ∀ (lits : List String), (∀ l ∈ lits, braceFree l) →
      strfmtGo [("env", v)] ((joinWith "\x7benv\x7d" lits).data ++ rest) .text =
        Option.map (fun r => (joinWith v lits).data ++ r) (strfmtGo [("env", v)] rest .text) := by
  intro lits
  induction lits with
  | nil =>
    intro _
    rw [show joinWith "\x7benv\x7d" [] = "" from rfl, show joinWith v [] = "" from rfl]
    cases hX : strfmtGo [("env", v)] rest FmtState.text <;> simp [hX]
  | cons l ls ih =>
    intro hbf
    cases ls with
    | nil =>
      rw [show joinWith "\x7benv\x7d" [l] = l from rfl, show joinWith v [l] = l from rfl]
      exact strfmtGo_text_append _ l.data (hbf l (List.mem_cons_self l [])) rest
    | cons m ms =>
      rw [show joinWith "\x7benv\x7d" (l :: m :: ms) =
        l ++ "\x7benv\x7d" ++ joinWith "\x7benv\x7d" (m :: ms) from rfl]
      rw [show joinWith v (l :: m :: ms) = l ++ v ++ joinWith v (m :: ms) from rfl]
      rw [String.data_append, String.data_append, List.append_assoc, List.append_assoc]
      rw [strfmtGo_text_append _ l.data (hbf l (List.mem_cons_self l (m :: ms))) _]
      rw [show ("\x7benv\x7d" : String).data ++ ((joinWith "\x7benv\x7d" (m :: ms)).data ++ rest) =
        '\x7b' :: (['e', 'n', 'v'] ++ '\x7d' :: ((joinWith "\x7benv\x7d" (m :: ms)).data ++ rest)) from rfl]
      rw [strfmtGo_placeholder _ ['e', 'n', 'v'] (by decide) _]
      rw [show List.lookup (String.mk ['e', 'n', 'v']) [("env", v)] = some v from rfl]
      rw [ih (fun x hx => hbf x (List.mem_cons_of_mem l hx))]
      cases hX : strfmtGo [("env", v)] rest FmtState.text <;>
        simp [hX, String.data_append, List.append_assoc]

/-- Full-template form of the env substitution. -/
theorem strfmt_env_join (v : String) (lits : List String) (hbf : ∀ l ∈ lits, braceFree l) :
    strfmt (joinWith "\x7benv\x7d" lits) [("env", v)] = some (joinWith v lits) := by
  unfold strfmt
  have h := strfmtGo_env_join v [] lits hbf
  rw [List.append_nil] at h
  rw [h]
  simp [strfmtGo, mkData]

/-- C8 (amended): with an environment supplied and a filename template whose
placeholders are exactly env occurrences between brace-free literal chunks,
the resolved filename substitutes the environment value for each env
placeholder and the environment is stored; with no environment the filename
is used verbatim and none is stored; the environment and get_filename
accessors return the stored fields unmodified.  (A template with any other
placeholder panics instead, see the counterexample.) -/
theorem get_file_env_subst (lits : List String) (v f : String)
    (hbf : ∀ l ∈ lits, braceFree l) :
    get_file (joinWith "\x7benv\x7d" lits) (some v) = some (joinWith v lits, some v) ∧
    get_file f none = some (f, none) ∧
    (∀ cfg : Config, cfg.environment' = cfg.environment ∧ cfg.get_filename = cfg.filename) := by
  refine ⟨?_, rfl, fun cfg => ⟨?_, rfl⟩⟩
  · simp [get_file, strfmt_env_join v lits hbf]
  · unfold Config.environment'
    cases cfg.environment <;> rfl

/-- Witness for C8: the repository's own filename-templating example. -/
theorem get_file_env_subst_witness :
    get_file "config_\x7benv\x7d.yaml" (some "dev") = some ("config_dev.yaml", some "dev") := by
  have h := (get_file_env_subst ["config_", ".yaml"] "dev" "x" (by decide)).1
  exact h
